import Mathlib

/-!
# WinClone `scan` — verification of the enumeration and export pipeline

Shallow embedding of `cmd/scan.go` and `cmd/root.go` of the WinClone
repository.  The Windows registry is abstracted, as the code's own
interface suggests, by the three capabilities used in the source:
open-for-read, list-children, read-string-field.  Each Go function of the
scan pipeline is translated into a Lean definition of the same name, and
the spec's testable properties are proved (or refuted) about those
definitions.
-/

/-- `Program` mirrors the Go struct `Program` in `cmd/scan.go`:
display name, version number and installation path. -/
structure Program where
  Name : String
  Version : String
  Path : String
deriving DecidableEq

/-- The zero value `var program Program` of the Go struct. -/
def emptyProgram : Program := ⟨"", "", ""⟩

/-- A registry subkey as seen through `registry.OpenKey` and
`Key.GetStringValue`: opening may fail (`openOk = false`), and reading a
named string value either succeeds or errors (`none` covers both an
absent value and a read error, exactly the two cases the Go code folds
into one `err != nil` branch). -/
structure RegChild where
  openOk : Bool
  getValue : String → Option String

/-- A registry root (one of the two Uninstall locations): opening it may
fail, `ReadSubKeyNames` may fail, and on success it reports its children
in OS order. -/
structure RegRoot where
  openOk : Bool
  listOk : Bool
  children : List RegChild

/-- Go's `unicode.IsSpace`, used by `strings.TrimSpace`. -/
def isSpaceGo (c : Char) : Bool :=
  c == ' ' || c == '\t' || c == '\n' || c.toNat == 0x0B || c.toNat == 0x0C ||
  c == '\r' || c.toNat == 0x85 || c.toNat == 0xA0 || c.toNat == 0x1680 ||
  (0x2000 ≤ c.toNat && c.toNat ≤ 0x200A) ||
  c.toNat == 0x2028 || c.toNat == 0x2029 || c.toNat == 0x202F ||
  c.toNat == 0x205F || c.toNat == 0x3000

/-- Go's `strings.TrimSpace`: drop the space characters from both ends. -/
def trimSpaceGo (s : String) : String :=
  String.mk (((s.data.dropWhile isSpaceGo).reverse.dropWhile isSpaceGo).reverse)

/-- `getProgramFromSubkey` from `cmd/scan.go`: open the subkey (an error
skips it), read `DisplayName` (an error skips it), trim it into `Name`,
then best-effort read `DisplayVersion` and `InstallLocation`, each trimmed
when the read succeeds and left as the zero value `""` otherwise.  The Go
function returns `(Program, error)` and every caller discards the program
when the error is non-nil, so the embedding returns `Option Program`. -/
def getProgramFromSubkey (c : RegChild) : Option Program :=
  if c.openOk then
    match c.getValue "DisplayName" with
    | none => none
    | some name =>
      let version : String :=
        match c.getValue "DisplayVersion" with
        | some v => trimSpaceGo v
        | none => emptyProgram.Version
      let path : String :=
        match c.getValue "InstallLocation" with
        | some q => trimSpaceGo q
        | none => emptyProgram.Path
      some { Name := trimSpaceGo name, Version := version, Path := path }
  else none

/-- The subkey loop of `scanRegistryLocation`: for each listed child, get
its program; on error `continue`; append only when `program.Name != ""`. -/
def processSubkeys : List RegChild → List Program
  | [] => []
  | c :: cs =>
    match getProgramFromSubkey c with
    | none => processSubkeys cs
    | some p => if p.Name ≠ "" then p :: processSubkeys cs else processSubkeys cs

/-- `scanRegistryLocation` from `cmd/scan.go`: open the root key (failure
is an error), read the subkey names (failure is an error), then run the
subkey loop over the listed children. -/
def scanRegistryLocation (r : RegRoot) : Except String (List Program) :=
  if r.openOk then
    if r.listOk then .ok (processSubkeys r.children)
    else .error "failed to read subkey names"
  else .error "failed to open registry key"

/-- The warning `scanAllPrograms` prints when the 64-bit root fails. -/
def warn64 (e : String) : String := "Warning: Could not scan 64-bit programs: " ++ e

/-- The warning `scanAllPrograms` prints when the 32-bit root fails. -/
def warn32 (e : String) : String := "Warning: Could not scan 32-bit programs: " ++ e

/-- What `scanAllPrograms` produces: the accumulated `allPrograms` slice,
the warnings it printed, and its returned `error` value. -/
structure ScanAllResult where
  programs : List Program
  warnings : List String
  err : Option String
deriving DecidableEq

/-- `scanAllPrograms` from `cmd/scan.go`: scan the 64-bit root (`A`),
appending its programs on success and printing a warning on failure, then
likewise the 32-bit root (`B`); always return a nil error. -/
def scanAllPrograms (A B : RegRoot) : ScanAllResult :=
  let r64 := scanRegistryLocation A
  let r32 := scanRegistryLocation B
  { programs :=
      (match r64 with | .ok ps => ps | .error _ => []) ++
      (match r32 with | .ok ps => ps | .error _ => [])
  , warnings :=
      (match r64 with | .ok _ => [] | .error e => [warn64 e]) ++
      (match r32 with | .ok _ => [] | .error e => [warn32 e])
  , err := none }

/-- The programs one root contributes to `allPrograms`: its scan result
on success, nothing when the scan of that root failed. -/
def rootPrograms (r : RegRoot) : List Program :=
  match scanRegistryLocation r with
  | .ok ps => ps
  | .error _ => []

/-- The record a single child contributes to the result of the subkey
loop, if any: its extracted program when extraction succeeded and the
trimmed name is non-empty. -/
def childRecord (c : RegChild) : Option Program :=
  match getProgramFromSubkey c with
  | none => none
  | some p => if p.Name ≠ "" then some p else none

/-! ## Helper lemmas about the subkey loop -/

lemma processSubkeys_eq_filterMap (cs : List RegChild) :
    processSubkeys cs = cs.filterMap childRecord := by
  induction cs with
  | nil => rfl
  | cons c cs ih =>
    simp only [processSubkeys, childRecord, List.filterMap_cons]
    cases h : getProgramFromSubkey c with
    | none => simpa using ih
    | some p => by_cases hp : p.Name = "" <;> simp [hp, ih]

lemma processSubkeys_cons (c : RegChild) (cs : List RegChild) :
    processSubkeys (c :: cs) =
      match childRecord c with
      | none => processSubkeys cs
      | some p => p :: processSubkeys cs := by
  simp only [processSubkeys_eq_filterMap, List.filterMap_cons]
  cases childRecord c <;> rfl

lemma childRecord_isSome_iff (c : RegChild) :
    (childRecord c).isSome = true ↔
      (c.openOk = true ∧ ∃ n, c.getValue "DisplayName" = some n ∧ trimSpaceGo n ≠ "") := by
  by_cases ho : c.openOk
  · cases hn : c.getValue "DisplayName" with
    | none => simp [childRecord, getProgramFromSubkey, ho, hn]
    | some n =>
      by_cases ht : trimSpaceGo n = "" <;>
        simp [childRecord, getProgramFromSubkey, ho, hn, ht]
  · simp [childRecord, getProgramFromSubkey, ho]

lemma childRecord_name_ne (c : RegChild) (p : Program)
    (h : childRecord c = some p) : p.Name ≠ "" := by
  unfold childRecord at h
  cases hg : getProgramFromSubkey c with
  | none => rw [hg] at h; exact absurd h (by simp)
  | some q =>
    rw [hg] at h
    by_cases hq : q.Name = ""
    · simp [hq] at h
    · simp [hq] at h; rw [← h]; exact hq

/-! ## C1 and its companions -/

/-- C1: `scanAllPrograms` returns exactly root A's extracted records
followed by root B's, never interleaved, and a successfully scanned
root's records are the children's records in OS-reported order (an
order-preserving `filterMap` over the listed children). -/
theorem scanAllPrograms_concat_in_order (A B : RegRoot) :
    (scanAllPrograms A B).programs = rootPrograms A ++ rootPrograms B
    ∧ (∀ r : RegRoot, r.openOk = true → r.listOk = true →
        rootPrograms r = r.children.filterMap childRecord) := by
  constructor
  · simp only [scanAllPrograms, rootPrograms]
  · intro r hopen hlist
    simp [rootPrograms, scanRegistryLocation, hopen, hlist, processSubkeys_eq_filterMap]

/-- Witness for C1 at a concrete pair of registry trees. -/
def childAlpha : RegChild :=
  ⟨true, fun k =>
    if k = "DisplayName" then some "Alpha"
    else if k = "DisplayVersion" then some "1.0"
    else if k = "InstallLocation" then some "C:\x5cAlpha" else none⟩

def childNoName : RegChild :=
  ⟨true, fun k => if k = "DisplayVersion" then some "9.9" else none⟩

def childBeta : RegChild :=
  ⟨true, fun k => if k = "DisplayName" then some "Beta" else none⟩

def wRootA : RegRoot := ⟨true, true, [childAlpha, childNoName]⟩

def wRootB : RegRoot := ⟨true, true, [childBeta]⟩

def failRoot : RegRoot := ⟨false, true, [childAlpha]⟩

theorem scanAllPrograms_concat_in_order_witness :
    (scanAllPrograms wRootA wRootB).programs = rootPrograms wRootA ++ rootPrograms wRootB
    ∧ rootPrograms wRootA = wRootA.children.filterMap childRecord :=
  ⟨(scanAllPrograms_concat_in_order wRootA wRootB).1,
   (scanAllPrograms_concat_in_order wRootA wRootB).2 wRootA rfl rfl⟩

/-! ## C2 -/

/-- C2: a child contributes a record to the output iff its subkey opens,
its `DisplayName` value is readable, and the trimmed name is non-empty; a
child with no readable `DisplayName` contributes nothing in any context;
and every record in the output has a non-empty name. -/
theorem child_contributes_iff (c : RegChild) (cs : List RegChild) :
    ((∃ p, processSubkeys (c :: cs) = p :: processSubkeys cs) ↔
      (c.openOk = true ∧ ∃ n, c.getValue "DisplayName" = some n ∧ trimSpaceGo n ≠ ""))
    ∧ (c.getValue "DisplayName" = none → processSubkeys (c :: cs) = processSubkeys cs)
    ∧ (∀ p ∈ processSubkeys cs, p.Name ≠ "") := by
  refine ⟨?_, ?_, ?_⟩
  · rw [← childRecord_isSome_iff]
    rw [processSubkeys_cons]
    cases h : childRecord c with
    | none =>
      simp only [Option.isSome_none]
      constructor
      · rintro ⟨p, hp⟩
        exact absurd hp.symm (List.cons_ne_self p _)
      · intro hfalse; cases hfalse
    | some p => simp
  · intro hn
    have hc : childRecord c = none := by
      simp [childRecord, getProgramFromSubkey, hn]
    rw [processSubkeys_cons, hc]
  · intro p hp
    rw [processSubkeys_eq_filterMap] at hp
    rcases List.mem_filterMap.mp hp with ⟨a, _, ha⟩
    exact childRecord_name_ne a p ha

theorem child_contributes_iff_witness :
    (∃ p, processSubkeys [childAlpha] = p :: processSubkeys ([] : List RegChild))
    ∧ processSubkeys [childNoName] = processSubkeys ([] : List RegChild) :=
  ⟨(child_contributes_iff childAlpha []).1.mpr ⟨rfl, "Alpha", rfl, by decide⟩,
   (child_contributes_iff childNoName []).2.1 rfl⟩

/-! ## C3: whitespace-only names -/

def childWsName : RegChild :=
  ⟨true, fun k => if k = "DisplayName" then some "   " else none⟩

/-- C3 counterexample: a child whose `DisplayName` value is present but
all whitespace is NOT kept in the output — the loop appends a record only
when the trimmed name is non-empty, so this child is dropped. -/
theorem whitespace_name_dropped_cex :
    childWsName.getValue "DisplayName" = some "   "
    ∧ processSubkeys [childWsName] = [] := by
  exact ⟨rfl, by decide⟩

/-- C3 amended: a child whose `DisplayName` is present but trims to the
empty string contributes nothing to the output; skipping applies both to
absence of the field and to trimmed emptiness. -/
theorem whitespace_name_dropped (c : RegChild) (cs : List RegChild) (n : String)
    (hn : c.getValue "DisplayName" = some n) (ht : trimSpaceGo n = "") :
    processSubkeys (c :: cs) = processSubkeys cs := by
  have hc : childRecord c = none := by
    by_cases ho : c.openOk <;>
      simp [childRecord, getProgramFromSubkey, ho, hn, ht]
  rw [processSubkeys_cons, hc]

theorem whitespace_name_dropped_witness :
    processSubkeys [childWsName] = processSubkeys ([] : List RegChild) :=
  whitespace_name_dropped childWsName [] "   " rfl (by decide)

/-! ## C4: extracted field values -/

/-- C4: a contributing child's record carries the trimmed `DisplayName`;
each optional field (`DisplayVersion`, `InstallLocation`) is the trimmed
value when readable and the empty string when absent or erroring; and
`"  Foo  "` trims to `"Foo"`. -/
theorem getProgram_fields (c : RegChild) (n : String)
    (ho : c.openOk = true) (hn : c.getValue "DisplayName" = some n) :
    (∃ p, getProgramFromSubkey c = some p
      ∧ p.Name = trimSpaceGo n
      ∧ (c.getValue "DisplayVersion" = none → p.Version = "")
      ∧ (∀ v, c.getValue "DisplayVersion" = some v → p.Version = trimSpaceGo v)
      ∧ (c.getValue "InstallLocation" = none → p.Path = "")
      ∧ (∀ q, c.getValue "InstallLocation" = some q → p.Path = trimSpaceGo q))
    ∧ trimSpaceGo "  Foo  " = "Foo" := by
  constructor
  · simp only [getProgramFromSubkey, ho, if_true, hn]
    refine ⟨_, rfl, rfl, ?_, ?_, ?_, ?_⟩
    · intro h; simp [h, emptyProgram]
    · intro v hv; simp [hv]
    · intro h; simp [h, emptyProgram]
    · intro q hq; simp [hq]
  · decide

theorem getProgram_fields_witness :
    (∃ p, getProgramFromSubkey childAlpha = some p
      ∧ p.Name = trimSpaceGo "Alpha"
      ∧ (childAlpha.getValue "DisplayVersion" = none → p.Version = "")
      ∧ (∀ v, childAlpha.getValue "DisplayVersion" = some v → p.Version = trimSpaceGo v)
      ∧ (childAlpha.getValue "InstallLocation" = none → p.Path = "")
      ∧ (∀ q, childAlpha.getValue "InstallLocation" = some q → p.Path = trimSpaceGo q))
    ∧ trimSpaceGo "  Foo  " = "Foo" :=
  getProgram_fields childAlpha "Alpha" rfl rfl

/-! ## C5: per-root failures are isolated and never fatal -/

/-- C5: `scanAllPrograms` always returns a nil error; when one root's
scan fails, a warning for that root is recorded, that root contributes no
records, and the result is exactly the other root's records; when both
fail the result is empty. -/
theorem scan_root_failure_isolated (A B : RegRoot) :
    (scanAllPrograms A B).err = none
    ∧ (∀ e, scanRegistryLocation A = .error e →
        (scanAllPrograms A B).programs = rootPrograms B ∧
        warn64 e ∈ (scanAllPrograms A B).warnings)
    ∧ (∀ e, scanRegistryLocation B = .error e →
        (scanAllPrograms A B).programs = rootPrograms A ∧
        warn32 e ∈ (scanAllPrograms A B).warnings)
    ∧ (∀ eA eB, scanRegistryLocation A = .error eA →
        scanRegistryLocation B = .error eB →
        (scanAllPrograms A B).programs = []) := by
  refine ⟨rfl, ?_, ?_, ?_⟩
  · intro e he
    constructor
    · simp only [scanAllPrograms, rootPrograms, he]
      cases scanRegistryLocation B <;> simp
    · simp [scanAllPrograms, he]
  · intro e he
    constructor
    · simp only [scanAllPrograms, rootPrograms, he]
      cases scanRegistryLocation A <;> simp
    · simp [scanAllPrograms, he]
  · intro eA eB hA hB
    simp [scanAllPrograms, hA, hB]

theorem scan_root_failure_isolated_witness :
    (scanAllPrograms failRoot wRootB).programs = rootPrograms wRootB ∧
    warn64 "failed to open registry key" ∈ (scanAllPrograms failRoot wRootB).warnings :=
  (scan_root_failure_isolated failRoot wRootB).2.1 "failed to open registry key" rfl

/-! ## String plumbing shared by the exporters -/

lemma strAppend_assoc (a b c : String) : a ++ b ++ c = a ++ (b ++ c) :=
  congrArg String.mk (List.append_assoc a.data b.data c.data)

lemma data_append (s t : String) : (s ++ t).data = s.data ++ t.data := rfl

/-- `strings.Repeat("=", 50)`, the separator of the text formats. -/
def sepLine : String := String.mk (List.replicate 50 '=')

/-! ## `displayResults` and `saveToText` -/

/-- The per-program loop of `displayResults`: 1-based index and name, a
`" (v...)"` suffix only when the version is non-empty, a `"   Path: "`
line only when the path is non-empty, and a blank separator line. -/
def displayBlocksAux : Nat → List Program → String
  | _, [] => ""
  | i, p :: rest =>
    toString (i + 1) ++ ". " ++ p.Name
      ++ (if p.Version ≠ "" then " (v" ++ p.Version ++ ")" else "")
      ++ "\n"
      ++ (if p.Path ≠ "" then "   Path: " ++ p.Path ++ "\n" else "")
      ++ "\n"
      ++ displayBlocksAux (i + 1) rest

/-- Everything `displayResults` prints to the console. -/
def displayResultsContent (ps : List Program) : String :=
  "\n" ++ sepLine ++ "\n"
  ++ "SCAN COMPLETE!\n"
  ++ "Found " ++ toString ps.length ++ " installed programs:\n"
  ++ sepLine ++ "\n\n"
  ++ displayBlocksAux 0 ps

/-- The per-program loop of `saveToText` (the Go source duplicates the
console loop's format string for string literal, so the embedding keeps two
definitions). -/
def textBlocksAux : Nat → List Program → String
  | _, [] => ""
  | i, p :: rest =>
    toString (i + 1) ++ ". " ++ p.Name
      ++ (if p.Version ≠ "" then " (v" ++ p.Version ++ ")" else "")
      ++ "\n"
      ++ (if p.Path ≠ "" then "   Path: " ++ p.Path ++ "\n" else "")
      ++ "\n"
      ++ textBlocksAux (i + 1) rest

/-- The file content `saveToText` writes: the `Fprintf` header (title,
hard-coded date, total count, 50-character separator, blank line) then
the per-program blocks. -/
def saveToTextContent (ps : List Program) : String :=
  "WinClone - Installed Programs List\n"
  ++ ("Generated on: " ++ "2025-01-14" ++ "\n")
  ++ ("Total programs found: " ++ toString ps.length ++ "\n")
  ++ (sepLine ++ "\n\n")
  ++ textBlocksAux 0 ps

lemma textBlocksAux_eq_displayBlocksAux (l : List Program) :
    ∀ i, textBlocksAux i l = displayBlocksAux i l := by
  induction l with
  | nil => intro i; rfl
  | cons p rest ih => intro i; simp only [textBlocksAux, displayBlocksAux, ih]

/-! ## C8: text export = fixed header + console blocks -/

/-- C8: the text export is a title line, a static date line, a
total-count line, a 50-character separator line and a blank line,
followed by exactly the per-record blocks of the console output, in
order. -/
theorem saveToText_format (ps : List Program) :
    saveToTextContent ps =
      "WinClone - Installed Programs List\n"
      ++ "Generated on: 2025-01-14\n"
      ++ ("Total programs found: " ++ toString ps.length ++ "\n")
      ++ (sepLine ++ "\n")
      ++ "\n"
      ++ displayBlocksAux 0 ps
    ∧ sepLine.length = 50 := by
  constructor
  · simp only [saveToTextContent, textBlocksAux_eq_displayBlocksAux, strAppend_assoc]
    rfl
  · rfl

/-! ## The JSON encoder of `saveToJSON`

`saveToJSON` runs `json.NewEncoder(file)` with `SetIndent("", "  ")` on
the `allPrograms` slice.  The embedding reproduces that encoder's output
character for character: HTML-escaping string encoding, objects and
array elements each on their own 2-space-indented line, `": "` after
keys, and the encoder's trailing newline.  The `allPrograms` slice is
`nil` whenever it is empty (it is only ever grown by `append`), and the
encoder renders a nil slice as `null`. -/

/-- Lowercase hex digits, as in Go's `encoding/json`. -/
def hexDigitChar (n : Nat) : Char :=
  if n < 10 then Char.ofNat (48 + n) else Char.ofNat (87 + n)

/-- How `encoding/json` (with HTML escaping on, the `Encoder` default)
escapes one character inside a string literal. -/
def escapeChar (c : Char) : List Char :=
  if c = '"' then ['\\', '"']
  else if c = '\\' then ['\\', '\\']
  else if c = '\n' then ['\\', 'n']
  else if c = '\r' then ['\\', 'r']
  else if c = '\t' then ['\\', 't']
  else if c = '<' ∨ c = '>' ∨ c = '&' ∨ c.toNat < 0x20 then
    ['\\', 'u', '0', '0', hexDigitChar (c.toNat / 16), hexDigitChar (c.toNat % 16)]
  else if c.toNat = 0x2028 ∨ c.toNat = 0x2029 then
    ['\\', 'u', '2', '0', '2', hexDigitChar (c.toNat % 16)]
  else [c]

def escapeList (cs : List Char) : List Char := (cs.map escapeChar).flatten

/-- A JSON string literal: quote, escaped characters, quote. -/
def jsonQuoteChars (s : String) : List Char := '"' :: (escapeList s.data ++ ['"'])

/-- One `"key": "value"` member on its 4-space-indented line. -/
def memberChars (key v : String) : List Char :=
  ' ' :: ' ' :: ' ' :: ' ' :: '"' :: (key.data ++ ('"' :: ':' :: ' ' :: jsonQuoteChars v))

/-- One encoded `Program` object as an array element (indent level 1). -/
def objectChars (p : Program) : List Char :=
  ' ' :: ' ' :: '{' :: '\n' :: (memberChars "Name" p.Name ++
    (',' :: '\n' :: (memberChars "Version" p.Version ++
      (',' :: '\n' :: (memberChars "Path" p.Path ++ ('\n' :: ' ' :: ' ' :: '}' :: []))))))

/-- The comma-separated element list of the encoded array. -/
def elemsChars : List Program → List Char
  | [] => []
  | [p] => objectChars p
  | p :: ps => objectChars p ++ (',' :: '\n' :: elemsChars ps)

/-- The bytes `saveToJSON` writes to the destination file. -/
def saveToJSONChars : List Program → List Char
  | [] => 'n' :: 'u' :: 'l' :: 'l' :: '\n' :: []
  | ps => '[' :: '\n' :: (elemsChars ps ++ ('\n' :: ']' :: '\n' :: []))

def saveToJSONContent (ps : List Program) : String := String.mk (saveToJSONChars ps)

/-! ## Spec-side description of the structured export (for C6)

These definitions follow the spec's words — "an array of objects each
with fields `Name`, `Version`, `Path` (version/path may be empty
strings), 2-space indentation, trailing newline from the encoder", with
no wrapper or envelope — for comparison with `saveToJSONContent`. -/

def jsonQuote (s : String) : String := String.mk (jsonQuoteChars s)

/-- One object of the spec's array, carrying exactly the three fields. -/
def specObject (p : Program) : String :=
  "  \x7b\n    \"Name\": " ++ jsonQuote p.Name
  ++ ",\n    \"Version\": " ++ jsonQuote p.Version
  ++ ",\n    \"Path\": " ++ jsonQuote p.Path
  ++ "\n  \x7d"

/-- The spec's objects, comma-separated, one per line. -/
def specJoined : List Program → String
  | [] => ""
  | [p] => specObject p
  | p :: ps => specObject p ++ ",\n" ++ specJoined ps

/-- The spec's structured export: exactly an array of the objects, with
the encoder's trailing newline and nothing around the array. -/
def specStructuredExport : List Program → String
  | [] => "[]\n"
  | ps => "[\n" ++ specJoined ps ++ "\n]\n"

lemma specObject_data (p : Program) : (specObject p).data = objectChars p := by
  simp only [specObject, objectChars, memberChars, jsonQuote, data_append,
    List.append_assoc]
  rfl

lemma specJoined_data : ∀ ps : List Program, (specJoined ps).data = elemsChars ps
  | [] => rfl
  | [p] => specObject_data p
  | p :: q :: tl => by
    simp only [specJoined, elemsChars, data_append, specObject_data,
      specJoined_data (q :: tl), List.append_assoc]
    rfl

/-! ## C6: shape of the structured export -/

/-- C6 counterexample: for the empty sequence the export writes the
literal `null` (the nil slice), not an array. -/
theorem saveToJSON_empty_cex :
    saveToJSONContent [] = "null\n"
    ∧ specStructuredExport [] = "[]\n"
    ∧ ("null\n" : String) ≠ "[]\n" := ⟨rfl, rfl, by decide⟩

/-- C6 amended: for every non-empty sequence the structured export is
exactly the spec's array of three-field objects with 2-space indentation
and a trailing newline, and nothing around the array; the empty sequence
instead yields the literal `null` line. -/
theorem saveToJSON_format (ps : List Program) (h : ps ≠ []) :
    saveToJSONContent ps = specStructuredExport ps
    ∧ saveToJSONContent [] = "null\n" := by
  refine ⟨?_, rfl⟩
  cases ps with
  | nil => exact absurd rfl h
  | cons p tl =>
    apply congrArg String.mk
    show saveToJSONChars (p :: tl) = (specStructuredExport (p :: tl)).data
    cases tl with
    | nil =>
      simp only [saveToJSONChars, specStructuredExport, data_append,
        specJoined_data, List.append_assoc]
      rfl
    | cons q tl2 =>
      simp only [saveToJSONChars, specStructuredExport, data_append,
        specJoined_data, List.append_assoc]
      rfl

theorem saveToJSON_format_witness :
    (saveToJSONContent [Program.mk "Beta" "" ""]
      = specStructuredExport [Program.mk "Beta" "" ""])
    ∧ saveToJSONContent [] = "null\n" :=
  saveToJSON_format [Program.mk "Beta" "" ""] (by simp)

/-! ## The command surface: `scanCmd.Run` and `Execute` -/

/-- `strings.HasSuffix`. -/
def hasSuffixGo (s suffix : String) : Bool := suffix.data.isSuffixOf s.data

/-- `strings.ToLower` (the characters appearing in the suffix test are
ASCII, where `Char.toLower` and Go agree). -/
def goToLower (s : String) : String := String.mk (s.data.map Char.toLower)

/-- The observable effect of one run of the `scan` command. -/
inductive ScanOutput where
  | scanError (msg : String)
  | console (content : String)
  | jsonFile (path content : String)
  | textFile (path content : String)
deriving DecidableEq

/-- The `Run` closure of `scanCmd` in `cmd/scan.go`: run
`scanAllPrograms`; report and stop on a non-nil error; with a non-empty
`--output` value choose JSON when the lowercased path ends in `.json`
and the text format otherwise; with no output file, display on screen. -/
def runScan (A B : RegRoot) (outputFile : String) : ScanOutput :=
  let r := scanAllPrograms A B
  match r.err with
  | some e => .scanError e
  | none =>
    if outputFile ≠ "" then
      if hasSuffixGo (goToLower outputFile) ".json" then
        .jsonFile outputFile (saveToJSONContent r.programs)
      else
        .textFile outputFile (saveToTextContent r.programs)
    else .console (displayResultsContent r.programs)

/-- `Execute` in `cmd/root.go`: `os.Exit(1)` exactly when the cobra
framework's `rootCmd.Execute()` returns an error (flag parse failures
and the like); otherwise the process ends normally.  `scanCmd` uses
`Run`, not `RunE`, so a scan never hands the framework an error. -/
def executeExitCode (frameworkErr : Option String) : Nat :=
  match frameworkErr with
  | some _ => 1
  | none => 0

/-! ## C9: warnings never produce a failing exit -/

/-- C9: `scanAllPrograms` returns a nil error for every registry
behavior (an empty list when both roots fail), the scan command never
ends in the scan-error branch, and the exit status is nonzero only for
framework-level failures. -/
theorem scan_warnings_never_fail (A B : RegRoot) (f : String) :
    (scanAllPrograms A B).err = none
    ∧ (∀ e, runScan A B f ≠ .scanError e)
    ∧ (∀ eA eB, scanRegistryLocation A = .error eA →
        scanRegistryLocation B = .error eB → (scanAllPrograms A B).programs = [])
    ∧ (∀ r : Option String, executeExitCode r ≠ 0 ↔ r ≠ none) := by
  refine ⟨rfl, ?_, ?_, ?_⟩
  · intro e
    show (runScan A B f) ≠ ScanOutput.scanError e
    have herr : (scanAllPrograms A B).err = none := rfl
    simp only [runScan, herr]
    by_cases hf : f = ""
    · simp [hf]
    · by_cases hs : hasSuffixGo (goToLower f) ".json" <;> simp [hf, hs]
  · intro eA eB hA hB
    simp [scanAllPrograms, hA, hB]
  · intro r
    cases r <;> simp [executeExitCode]

def failListRoot : RegRoot := ⟨true, false, []⟩

theorem scan_warnings_never_fail_witness :
    (scanAllPrograms failRoot failListRoot).err = none
    ∧ (scanAllPrograms failRoot failListRoot).programs = []
    ∧ runScan failRoot failListRoot "" ≠ .scanError "boom" :=
  ⟨(scan_warnings_never_fail failRoot failListRoot "").1,
   (scan_warnings_never_fail failRoot failListRoot "").2.2.1
     "failed to open registry key" "failed to read subkey names" rfl rfl,
   (scan_warnings_never_fail failRoot failListRoot "").2.1 "boom"⟩

/-! ## C10: format selection is a case-insensitive `.json` suffix test -/

/-- C10: the command writes the JSON export iff the output path is
non-empty and its lowercasing ends in `.json`; an empty path goes to the
console; every other non-empty path (other extension, `.JSON` before
lowercasing handled by the lowercasing, or no extension) goes to the
text export. -/
theorem output_format_by_suffix (A B : RegRoot) (path : String) :
    ((∃ c, runScan A B path = .jsonFile path c) ↔
      (path ≠ "" ∧ hasSuffixGo (goToLower path) ".json" = true))
    ∧ (path = "" → ∃ c, runScan A B path = .console c)
    ∧ (path ≠ "" → hasSuffixGo (goToLower path) ".json" = false →
        ∃ c, runScan A B path = .textFile path c) := by
  have herr : (scanAllPrograms A B).err = none := rfl
  refine ⟨?_, ?_, ?_⟩
  · by_cases hp : path = ""
    · simp only [runScan, herr, hp]
      simp
    · by_cases hs : hasSuffixGo (goToLower path) ".json" <;>
        simp [runScan, herr, hp, hs]
  · intro hp
    simp [runScan, herr, hp]
  · intro hp hs
    simp [runScan, herr, hp, hs]

theorem output_format_by_suffix_witness :
    (∃ c, runScan wRootA wRootB "programs.JSON" = .jsonFile "programs.JSON" c)
    ∧ (∃ c, runScan wRootA wRootB "" = .console c)
    ∧ (∃ c, runScan wRootA wRootB "programs.txt" = .textFile "programs.txt" c) :=
  ⟨(output_format_by_suffix wRootA wRootB "programs.JSON").1.mpr
     ⟨by decide, by decide⟩,
   (output_format_by_suffix wRootA wRootB "").2.1 rfl,
   (output_format_by_suffix wRootA wRootB "programs.txt").2.2
     (by decide) (by decide)⟩

/-! ## A JSON reader (model of `json.Unmarshal` into `[]Program`)

The spec's round-trip property talks about parsing the structured
document back.  The reader below is a recursive-descent JSON parser for
the grammar `json.Unmarshal` consumes when decoding into `[]Program`:
optional whitespace, either `null` (the nil slice) or an array of
objects whose members are string-valued; known keys set the
corresponding struct field, unknown keys are ignored.  Recursion is
bounded by explicit fuel. -/

def isJsonWs (c : Char) : Bool := c == ' ' || c == '\t' || c == '\n' || c == '\r'

def skipWs (l : List Char) : List Char := l.dropWhile isJsonWs

def hexVal (c : Char) : Option Nat :=
  if '0' ≤ c ∧ c ≤ '9' then some (c.toNat - 48)
  else if 'a' ≤ c ∧ c ≤ 'f' then some (c.toNat - 87)
  else if 'A' ≤ c ∧ c ≤ 'F' then some (c.toNat - 55)
  else none

/-- Decode one escape sequence (the part after the backslash): the
decoded character and the remainder. -/
def unescapeHead : List Char → Option (Char × List Char)
  | 'n' :: r => some ('\n', r)
  | 'r' :: r => some ('\r', r)
  | 't' :: r => some ('\t', r)
  | 'b' :: r => some (Char.ofNat 8, r)
  | 'f' :: r => some (Char.ofNat 12, r)
  | '"' :: r => some ('"', r)
  | '\\' :: r => some ('\\', r)
  | '/' :: r => some ('/', r)
  | 'u' :: d1 :: d2 :: d3 :: d4 :: r =>
    match hexVal d1, hexVal d2, hexVal d3, hexVal d4 with
    | some a, some b, some e, some d =>
      some (Char.ofNat (((a * 16 + b) * 16 + e) * 16 + d), r)
    | _, _, _, _ => none
  | _ => none

/-- Read the rest of a JSON string literal (after the opening quote):
the decoded characters and the remainder after the closing quote.  The
fuel only needs to cover the number of decoded characters. -/
def parseStringBody : Nat → List Char → Option (List Char × List Char)
  | 0, _ => none
  | _ + 1, [] => none
  | fuel + 1, c :: rest =>
    if c = '"' then some ([], rest)
    else if c = '\\' then
      match unescapeHead rest with
      | none => none
      | some (e, r) => (parseStringBody fuel r).map (fun x => (e :: x.1, x.2))
    else (parseStringBody fuel rest).map (fun x => (c :: x.1, x.2))

/-- Read a JSON string literal body with always-sufficient fuel. -/
def parseString (l : List Char) : Option (List Char × List Char) :=
  parseStringBody (l.length + 1) l

/-- How `Unmarshal` assigns a decoded `"key": "value"` member to the
struct: the three field names set their field, anything else is ignored. -/
def assignField (acc : Program) (key v : String) : Program :=
  if key = "Name" then { acc with Name := v }
  else if key = "Version" then { acc with Version := v }
  else if key = "Path" then { acc with Path := v }
  else acc

/-- Read the members of an object (after its `{`), accumulating fields. -/
def parseMembers : Nat → Program → List Char → Option (Program × List Char)
  | 0, _, _ => none
  | fuel + 1, acc, l =>
    match skipWs l with
    | '"' :: r =>
      match parseString r with
      | none => none
      | some (key, r1) =>
        match skipWs r1 with
        | ':' :: r2 =>
          match skipWs r2 with
          | '"' :: r3 =>
            match parseString r3 with
            | none => none
            | some (v, r4) =>
              let acc1 := assignField acc (String.mk key) (String.mk v)
              match skipWs r4 with
              | ',' :: r5 => parseMembers fuel acc1 r5
              | '}' :: r5 => some (acc1, r5)
              | _ => none
          | _ => none
        | _ => none
    | _ => none

/-- Read an object body (after its `{`): empty object or members. -/
def parseObjectBody (fuel : Nat) (l : List Char) : Option (Program × List Char) :=
  match skipWs l with
  | '}' :: r => some (emptyProgram, r)
  | _ => parseMembers fuel emptyProgram l

/-- Read the elements of a non-empty array (after its `[`). -/
def parseElems : Nat → List Char → Option (List Program × List Char)
  | 0, _ => none
  | fuel + 1, l =>
    match skipWs l with
    | '{' :: r =>
      match parseObjectBody (fuel + 1) r with
      | none => none
      | some (p, r1) =>
        match skipWs r1 with
        | ',' :: r2 =>
          match parseElems fuel r2 with
          | none => none
          | some (ps, r3) => some (p :: ps, r3)
        | ']' :: r2 => some ([p], r2)
        | _ => none
    | _ => none

/-- Parse a whole document into the record list `Unmarshal` would
produce: `null` and `[]` give zero records, an array its elements; only
trailing whitespace may follow. -/
def parsePrograms (s : String) : Option (List Program) :=
  match skipWs s.data with
  | c :: r =>
    if c = 'n' then
      match r with
      | 'u' :: 'l' :: 'l' :: r2 => if skipWs r2 = [] then some [] else none
      | _ => none
    else if c = '[' then
      match skipWs r with
      | c1 :: r1 =>
        if c1 = ']' then (if skipWs r1 = [] then some [] else none)
        else
          match parseElems (s.data.length + 1) r with
          | none => none
          | some (ps, r2) => if skipWs r2 = [] then some ps else none
      | [] => none
    else none
  | [] => none

/-! ## Round-trip lemmas: decoding what the encoder wrote -/

lemma escapeList_nil : escapeList [] = [] := rfl

lemma escapeList_cons (c : Char) (cs : List Char) :
    escapeList (c :: cs) = escapeChar c ++ escapeList cs := by
  simp [escapeList]

lemma hexVal_hexDigitChar : ∀ k, k < 16 → hexVal (hexDigitChar k) = some k := by decide

lemma unescapeHead_u (d1 d2 d3 d4 : Char) (l : List Char) :
    unescapeHead ('u' :: d1 :: d2 :: d3 :: d4 :: l) =
      match hexVal d1, hexVal d2, hexVal d3, hexVal d4 with
      | some a, some b, some e, some d =>
        some (Char.ofNat (((a * 16 + b) * 16 + e) * 16 + d), l)
      | _, _, _, _ => none := rfl

lemma psb_quote (f : Nat) (l : List Char) :
    parseStringBody (f + 1) ('"' :: l) = some ([], l) := rfl

lemma psb_backslash (f : Nat) (rest : List Char) :
    parseStringBody (f + 1) ('\\' :: rest) =
      match unescapeHead rest with
      | none => none
      | some (e, r) => (parseStringBody f r).map (fun x => (e :: x.1, x.2)) := rfl

lemma psb_plain (f : Nat) (c : Char) (l : List Char) (h1 : ¬ c = '"') (h2 : ¬ c = '\\') :
    parseStringBody (f + 1) (c :: l) = (parseStringBody f l).map (fun x => (c :: x.1, x.2)) := by
  simp [parseStringBody, h1, h2]

lemma parseStringBody_escapeList :
    ∀ (cs : List Char) (fuel : Nat) (rest : List Char), cs.length < fuel →
      parseStringBody fuel (escapeList cs ++ ('"' :: rest)) = some (cs, rest) := by
  intro cs
  induction cs with
  | nil =>
    intro fuel rest hf
    obtain ⟨f, rfl⟩ : ∃ f, fuel = f + 1 := ⟨fuel - 1, by omega⟩
    rw [escapeList_nil, List.nil_append, psb_quote]
  | cons c cs ih =>
    intro fuel rest hf
    obtain ⟨f, rfl⟩ : ∃ f, fuel = f + 1 := ⟨fuel - 1, by omega⟩
    have hf' : cs.length < f := by
      simp only [List.length_cons] at hf; omega
    have hT := ih f rest hf'
    rw [escapeList_cons, List.append_assoc]
    by_cases h1 : c = '"'
    · subst h1
      rw [show escapeChar '"' = ['\\', '"'] from rfl]
      simp only [List.cons_append, List.nil_append, psb_backslash]
      rw [show ∀ l : List Char, unescapeHead ('"' :: l) = some ('"', l) from fun _ => rfl]
      simp [hT]
    · by_cases h2 : c = '\\'
      · subst h2
        rw [show escapeChar '\\' = ['\\', '\\'] from rfl]
        simp only [List.cons_append, List.nil_append, psb_backslash]
        rw [show ∀ l : List Char, unescapeHead ('\\' :: l) = some ('\\', l) from fun _ => rfl]
        simp [hT]
      · by_cases h3 : c = '\n'
        · subst h3
          rw [show escapeChar '\n' = ['\\', 'n'] from rfl]
          simp only [List.cons_append, List.nil_append, psb_backslash]
          rw [show ∀ l : List Char, unescapeHead ('n' :: l) = some ('\n', l) from fun _ => rfl]
          simp [hT]
        · by_cases h4 : c = '\r'
          · subst h4
            rw [show escapeChar '\r' = ['\\', 'r'] from rfl]
            simp only [List.cons_append, List.nil_append, psb_backslash]
            rw [show ∀ l : List Char, unescapeHead ('r' :: l) = some ('\r', l) from fun _ => rfl]
            simp [hT]
          · by_cases h5 : c = '\t'
            · subst h5
              rw [show escapeChar '\t' = ['\\', 't'] from rfl]
              simp only [List.cons_append, List.nil_append, psb_backslash]
              rw [show ∀ l : List Char, unescapeHead ('t' :: l) = some ('\t', l) from fun _ => rfl]
              simp [hT]
            · by_cases h6 : c = '<' ∨ c = '>' ∨ c = '&' ∨ c.toNat < 0x20
              · have hec : escapeChar c =
                    ['\\', 'u', '0', '0', hexDigitChar (c.toNat / 16), hexDigitChar (c.toNat % 16)] := by
                  simp only [escapeChar, if_neg h1, if_neg h2, if_neg h3, if_neg h4, if_neg h5,
                    if_pos h6]
                have hb : c.toNat / 16 < 16 := by
                  rcases h6 with h | h | h | h
                  · subst h; decide
                  · subst h; decide
                  · subst h; decide
                  · omega
                have hd1 := hexVal_hexDigitChar _ hb
                have hd2 := hexVal_hexDigitChar (c.toNat % 16) (by omega)
                have h0 : hexVal '0' = some 0 := by decide
                rw [hec]
                simp only [List.cons_append, List.nil_append, psb_backslash]
                have hu : unescapeHead
                    ('u' :: '0' :: '0' :: hexDigitChar (c.toNat / 16) ::
                      hexDigitChar (c.toNat % 16) :: (escapeList cs ++ ('"' :: rest))) =
                    some (Char.ofNat c.toNat, escapeList cs ++ ('"' :: rest)) := by
                  rw [unescapeHead_u, h0, hd1, hd2]
                  show some (Char.ofNat (((0 * 16 + 0) * 16 + c.toNat / 16) * 16 + c.toNat % 16),
                    escapeList cs ++ ('"' :: rest)) = _
                  rw [show ((0 * 16 + 0) * 16 + c.toNat / 16) * 16 + c.toNat % 16 = c.toNat from
                    by omega]
                rw [hu]
                simp [hT, Char.ofNat_toNat]
              · by_cases h7 : c.toNat = 0x2028 ∨ c.toNat = 0x2029
                · have hec : escapeChar c =
                      ['\\', 'u', '2', '0', '2', hexDigitChar (c.toNat % 16)] := by
                    simp only [escapeChar, if_neg h1, if_neg h2, if_neg h3, if_neg h4, if_neg h5,
                      if_neg h6, if_pos h7]
                  have hd2 := hexVal_hexDigitChar (c.toNat % 16) (by omega)
                  have h00 : hexVal '0' = some 0 := by decide
                  have h22 : hexVal '2' = some 2 := by decide
                  rw [hec]
                  simp only [List.cons_append, List.nil_append, psb_backslash]
                  have hu : unescapeHead
                      ('u' :: '2' :: '0' :: '2' ::
                        hexDigitChar (c.toNat % 16) :: (escapeList cs ++ ('"' :: rest))) =
                      some (Char.ofNat c.toNat, escapeList cs ++ ('"' :: rest)) := by
                    rw [unescapeHead_u, h00, h22, hd2]
                    show some (Char.ofNat (((2 * 16 + 0) * 16 + 2) * 16 + c.toNat % 16),
                      escapeList cs ++ ('"' :: rest)) = _
                    rw [show ((2 * 16 + 0) * 16 + 2) * 16 + c.toNat % 16 = c.toNat from
                      by rcases h7 with h | h <;> omega]
                  rw [hu]
                  simp [hT, Char.ofNat_toNat]
                · have hec : escapeChar c = [c] := by
                    simp only [escapeChar, if_neg h1, if_neg h2, if_neg h3, if_neg h4, if_neg h5,
                      if_neg h6, if_neg h7]
                  rw [hec]
                  simp only [List.cons_append, List.nil_append]
                  rw [psb_plain f c _ h1 h2]
                  simp [hT]

lemma escapeChar_length_pos (c : Char) : 1 ≤ (escapeChar c).length := by
  unfold escapeChar
  split_ifs <;> simp

lemma escapeList_length_ge (cs : List Char) : cs.length ≤ (escapeList cs).length := by
  induction cs with
  | nil => simp [escapeList_nil]
  | cons c cs ih =>
    rw [escapeList_cons]
    simp only [List.length_append, List.length_cons]
    have := escapeChar_length_pos c
    omega

lemma parseString_escapeList (cs rest : List Char) :
    parseString (escapeList cs ++ ('"' :: rest)) = some (cs, rest) := by
  unfold parseString
  apply parseStringBody_escapeList
  have h1 := escapeList_length_ge cs
  simp only [List.length_append, List.length_cons]
  omega

/-! ## Parsing the rendered members, objects and arrays -/

lemma mk_data (s : String) : String.mk s.data = s := rfl

lemma skipWs_nl (l : List Char) : skipWs ('\n' :: l) = skipWs l := rfl

lemma skipWs_sp (l : List Char) : skipWs (' ' :: l) = skipWs l := rfl

lemma skipWs_quote (l : List Char) : skipWs ('"' :: l) = '"' :: l := rfl

lemma skipWs_colon (l : List Char) : skipWs (':' :: l) = ':' :: l := rfl

lemma skipWs_comma (l : List Char) : skipWs (',' :: l) = ',' :: l := rfl

lemma skipWs_lbrace (l : List Char) : skipWs ('{' :: l) = '{' :: l := rfl

lemma skipWs_rbrace (l : List Char) : skipWs ('}' :: l) = '}' :: l := rfl

lemma skipWs_lbrack (l : List Char) : skipWs ('[' :: l) = '[' :: l := rfl

lemma skipWs_rbrack (l : List Char) : skipWs (']' :: l) = ']' :: l := rfl

lemma parseMembers_member (fuel : Nat) (acc : Program) (key v : String)
    (hesc : escapeList key.data = key.data) (tail : List Char) :
    parseMembers (fuel + 1) acc ('\n' :: (memberChars key v ++ tail)) =
      match skipWs tail with
      | ',' :: r5 => parseMembers fuel (assignField acc key v) r5
      | '}' :: r5 => some (assignField acc key v, r5)
      | _ => none := by
  simp only [memberChars, jsonQuoteChars, List.cons_append, List.append_assoc]
  rw [← hesc]
  simp only [parseMembers, skipWs_nl, skipWs_sp, skipWs_quote, skipWs_colon,
    parseString_escapeList, mk_data, List.nil_append]

lemma assign_three (p : Program) :
    assignField (assignField (assignField emptyProgram "Name" p.Name)
      "Version" p.Version) "Path" p.Path = p := by
  cases p
  rfl

lemma parseMembers_object (k : Nat) (p : Program) (rest : List Char) :
    parseMembers (k + 3) emptyProgram
      ('\n' :: (memberChars "Name" p.Name ++
        (',' :: '\n' :: (memberChars "Version" p.Version ++
          (',' :: '\n' :: (memberChars "Path" p.Path ++
            ('\n' :: ' ' :: ' ' :: '}' :: rest))))))) = some (p, rest) := by
  have e1 : escapeList ("Name" : String).data = ("Name" : String).data := by decide
  have e2 : escapeList ("Version" : String).data = ("Version" : String).data := by decide
  have e3 : escapeList ("Path" : String).data = ("Path" : String).data := by decide
  rw [show k + 3 = (k + 2) + 1 from rfl,
    parseMembers_member (k + 2) emptyProgram "Name" p.Name e1]
  simp only [skipWs_comma]
  rw [show k + 2 = (k + 1) + 1 from rfl,
    parseMembers_member (k + 1) _ "Version" p.Version e2]
  simp only [skipWs_comma]
  rw [show k + 1 = k + 1 from rfl, parseMembers_member k _ "Path" p.Path e3]
  simp only [skipWs_nl, skipWs_sp, skipWs_rbrace]
  rw [assign_three]

lemma skipWs_memberChars (key v : String) (t : List Char) :
    skipWs (memberChars key v ++ t) =
      '"' :: ((key.data ++ ('"' :: ':' :: ' ' :: jsonQuoteChars v)) ++ t) := by
  simp only [memberChars, List.cons_append]
  rfl

lemma parseElems_succ (fuel : Nat) (l : List Char) :
    parseElems (fuel + 1) l =
      match skipWs l with
      | '{' :: r =>
        match parseObjectBody (fuel + 1) r with
        | none => none
        | some (p, r1) =>
          match skipWs r1 with
          | ',' :: r2 =>
            match parseElems fuel r2 with
            | none => none
            | some (ps, r3) => some (p :: ps, r3)
          | ']' :: r2 => some ([p], r2)
          | _ => none
      | _ => none := rfl

lemma parseElems_render :
    ∀ (tl : List Program) (p : Program) (k : Nat) (rest : List Char),
      parseElems ((p :: tl).length + (k + 3))
        ('\n' :: (elemsChars (p :: tl) ++ ('\n' :: ']' :: rest))) = some (p :: tl, rest) := by
  intro tl
  induction tl with
  | nil =>
    intro p k rest
    rw [show (p :: ([] : List Program)).length + (k + 3) = (k + 3) + 1 from by
      simp only [List.length_cons, List.length_nil]; omega]
    rw [parseElems_succ]
    simp only [elemsChars, objectChars, List.cons_append, List.append_assoc, List.nil_append,
      skipWs_nl, skipWs_sp, skipWs_lbrace]
    rw [show (k + 3) + 1 = (k + 1) + 3 from by omega]
    simp only [parseObjectBody, skipWs_nl, skipWs_sp, skipWs_memberChars]
    rw [parseMembers_object (k + 1) p]
    simp [skipWs_nl, skipWs_rbrack]
  | cons q tl2 ih =>
    intro p k rest
    rw [show (p :: q :: tl2).length + (k + 3) = ((q :: tl2).length + (k + 3)) + 1 from by
      simp only [List.length_cons]; omega]
    rw [parseElems_succ]
    simp only [elemsChars, objectChars, List.cons_append, List.append_assoc, List.nil_append,
      skipWs_nl, skipWs_sp, skipWs_lbrace]
    rw [show ((q :: tl2).length + (k + 3)) + 1 = ((q :: tl2).length + (k + 1)) + 3 from by omega]
    simp only [parseObjectBody, skipWs_nl, skipWs_sp, skipWs_memberChars]
    rw [parseMembers_object ((q :: tl2).length + (k + 1)) p]
    simp [skipWs_comma]
    have ihq := ih q k rest
    simp only [List.length_cons] at ihq
    rw [ihq]

lemma objectChars_length_ge (p : Program) : 2 ≤ (objectChars p).length := by
  simp only [objectChars, List.length_cons]
  omega

lemma elemsChars_length_ge :
    ∀ (tl : List Program) (p : Program),
      (p :: tl).length + 1 ≤ (elemsChars (p :: tl)).length := by
  intro tl
  induction tl with
  | nil =>
    intro p
    have := objectChars_length_ge p
    simp only [elemsChars, List.length_cons, List.length_nil]
    omega
  | cons q tl2 ih =>
    intro p
    have h1 := objectChars_length_ge p
    have h2 := ih q
    simp only [elemsChars, List.length_append, List.length_cons] at h2 ⊢
    omega

/-- C7: round trip — parsing the structured export of any record list
yields exactly the original records, identical in all three fields. -/
theorem json_round_trip (ps : List Program) :
    parsePrograms (saveToJSONContent ps) = some ps := by
  cases ps with
  | nil => rfl
  | cons p tl =>
    have hdata : (saveToJSONContent (p :: tl)).data =
        '[' :: '\n' :: (elemsChars (p :: tl) ++ ('\n' :: ']' :: ('\n' :: []))) := rfl
    obtain ⟨X, hX⟩ : ∃ X,
        skipWs ('\n' :: (elemsChars (p :: tl) ++ ('\n' :: ']' :: ('\n' :: [])))) = '{' :: X := by
      cases tl <;>
        · simp only [elemsChars, objectChars, List.cons_append, List.append_assoc,
            List.nil_append, skipWs_nl, skipWs_sp, skipWs_lbrace]
          exact ⟨_, rfl⟩
    have hK : ('[' :: '\n' :: (elemsChars (p :: tl) ++ ('\n' :: ']' :: ('\n' :: [])))).length + 1
        = (p :: tl).length +
          (((elemsChars (p :: tl)).length + 3 - (p :: tl).length) + 3) := by
      have := elemsChars_length_ge tl p
      simp only [List.length_cons, List.length_append, List.length_nil] at this ⊢
      omega
    simp only [parsePrograms]
    rw [hdata, skipWs_lbrack]
    simp only []
    rw [if_neg (show ¬ ('[' : Char) = 'n' by decide)]
    rw [if_pos trivial]
    rw [hX]
    simp only []
    rw [if_neg (show ¬ ('{' : Char) = ']' by decide)]
    rw [hK]
    rw [parseElems_render tl p ((elemsChars (p :: tl)).length + 3 - (p :: tl).length)
      ('\n' :: [])]
    simp only []
    rw [if_pos (show skipWs ('\n' :: ([] : List Char)) = [] from rfl)]
